import Mathlib

/-!
# BPMF sampling engine (`src/c++/bpmf.cpp`, `src/c++/bpmf.h`)

Shallow embedding of the Gibbs sampler of `bpmf.cpp` and of `HyperParams::sample`
of `bpmf.h`.

Modelling conventions.

* `double` values are elements of an exact field `K`.  Where the source divides by a
  quantity that can be zero, the quotient is a `Dbl K`, which adds the IEEE 754 special
  values `+inf`, `-inf` and `NaN` to `K`.  Where rounding decides a statement, lines
  100-105 of `sample_movie` are read a second time with every operation rounded to
  binary64 (`fl`).
* `Eigen::Matrix<double, num_feat, Dynamic>` is `Matrix (Fin num_feat) (Fin n) K`;
  `num_feat` (the constant `32` of `bpmf.cpp`, `BPMF_NUMLATENT` in `bpmf.h`) is a
  parameter of the development.
* The Eigen routines `inverse()` and `llt().matrixL()`, the random source behind
  `nrandn`, and the five-argument `CondNormalWishart` called by `run` are parameters.
* `#pragma omp parallel for` is read sequentially (ascending index).
-/

namespace BPMF

open Matrix

/-! ## Constants of `bpmf.cpp` -/

/-- Source: `const int alpha = 2;`. -/
def alpha : Int := 2

/-- Source: `const int nsims = 20;`. -/
def nsims : Nat := 20

/-- Source: `const int burnin = 5;` (declared in `bpmf.cpp`, never read). -/
def burnin : Nat := 5

/-! ## Sparse matrices -/

/-- Number of stored entries of a family of columns. -/
def countStored {rows cols : Nat} {K : Type} (inner : Fin cols → List (Fin rows × K)) : Nat :=
  ((List.finRange cols).map fun k => (inner k).length).sum

/-- Column-major `Eigen::SparseMatrix<double>` with `rows` rows and `cols` columns:
`inner k` lists the stored entries `(row, value)` of column `k` in storage order, the
order in which `InnerIterator` visits them.  The storage index type is `int`, so the
number of stored entries is below `2 ^ 31`. -/
structure SparseMatrixD (K : Type) (rows cols : Nat) where
  inner : Fin cols → List (Fin rows × K)
  nnz_lt : countStored inner < 2 ^ 31

variable {K : Type} {num_feat nr nc : Nat}

/-- Source: `mat.nonZeros()`. -/
def SparseMatrixD.nonZeros (mat : SparseMatrixD K nr nc) : Nat :=
  countStored mat.inner

/-- Source: `mat.col(mm).nonZeros()`. -/
def SparseMatrixD.colNonZeros (mat : SparseMatrixD K nr nc) (mm : Fin nc) : Nat :=
  (mat.inner mm).length

/-! ## `sample_movie` -/

section SampleMovie

variable [CommRing K]

/-- The gather loop of `sample_movie`:
`for (it(mat,mm); it; ++it, ++i) { E.col(i) = samples.col(it.row()); rr(i) = it.value() - mean_rating; }`
run over the remaining entries, `i` being the current value of the counter. -/
def gatherLoop {n : Nat} (samples : Matrix (Fin num_feat) (Fin nr) K) (mean_rating : K) :
    List (Fin nr × K) → Nat → Matrix (Fin num_feat) (Fin n) K × (Fin n → K) →
      Matrix (Fin num_feat) (Fin n) K × (Fin n → K)
  | [], _, acc => acc
  | it :: rest, i, acc =>
      gatherLoop samples mean_rating rest (i + 1)
        (fun r c => if c.val = i then samples r it.1 else acc.1 r c,
         fun c => if c.val = i then it.2 - mean_rating else acc.2 c)

/-- The pair `(E, rr)` after the gather loop; both start at `i = 0` from freshly
allocated storage (modelled as zero; every cell is overwritten by the loop). -/
def sample_movie_gather (mm : Fin nc) (mat : SparseMatrixD K nr nc) (mean_rating : K)
    (samples : Matrix (Fin num_feat) (Fin nr) K) :
    Matrix (Fin num_feat) (Fin (mat.colNonZeros mm)) K × (Fin (mat.colNonZeros mm) → K) :=
  gatherLoop samples mean_rating (mat.inner mm) 0 (0, 0)

/-- Source: `auto MM = E * E.transpose();`. -/
def sample_movie_MM (mm : Fin nc) (mat : SparseMatrixD K nr nc) (mean_rating : K)
    (samples : Matrix (Fin num_feat) (Fin nr) K) : Matrix (Fin num_feat) (Fin num_feat) K :=
  let E := (sample_movie_gather mm mat mean_rating samples).1
  E * Eᵀ

/-- Source: `Lambda_u + MMs` with `auto MMs = alpha * MM;`, the matrix handed to `inverse()`. -/
def sample_movie_precision (mm : Fin nc) (mat : SparseMatrixD K nr nc) (mean_rating : K)
    (samples : Matrix (Fin num_feat) (Fin nr) K) (alpha : Int)
    (Lambda_u : Matrix (Fin num_feat) (Fin num_feat) K) : Matrix (Fin num_feat) (Fin num_feat) K :=
  Lambda_u + (alpha : K) • sample_movie_MM mm mat mean_rating samples

/-- Source: `MatrixNNd covar = (Lambda_u + MMs).inverse();`. -/
def sample_movie_covar (inverse : Matrix (Fin num_feat) (Fin num_feat) K → Matrix (Fin num_feat) (Fin num_feat) K)
    (mm : Fin nc) (mat : SparseMatrixD K nr nc) (mean_rating : K)
    (samples : Matrix (Fin num_feat) (Fin nr) K) (alpha : Int)
    (Lambda_u : Matrix (Fin num_feat) (Fin num_feat) K) : Matrix (Fin num_feat) (Fin num_feat) K :=
  inverse (sample_movie_precision mm mat mean_rating samples alpha Lambda_u)

/-- Source: `VectorNd MMrr = (E * rr) * alpha;`. -/
def sample_movie_MMrr (mm : Fin nc) (mat : SparseMatrixD K nr nc) (mean_rating : K)
    (samples : Matrix (Fin num_feat) (Fin nr) K) (alpha : Int) : Fin num_feat → K :=
  let g := sample_movie_gather mm mat mean_rating samples
  fun i => (g.1 *ᵥ g.2) i * (alpha : K)

/-- Source: `auto U = Lambda_u * mu_u; auto mu = covar * (MMrr + U);`. -/
def sample_movie_mu (inverse : Matrix (Fin num_feat) (Fin num_feat) K → Matrix (Fin num_feat) (Fin num_feat) K)
    (mm : Fin nc) (mat : SparseMatrixD K nr nc) (mean_rating : K)
    (samples : Matrix (Fin num_feat) (Fin nr) K) (alpha : Int) (mu_u : Fin num_feat → K)
    (Lambda_u : Matrix (Fin num_feat) (Fin num_feat) K) : Fin num_feat → K :=
  let U := Lambda_u *ᵥ mu_u
  sample_movie_covar inverse mm mat mean_rating samples alpha Lambda_u *ᵥ
    (sample_movie_MMrr mm mat mean_rating samples alpha + U)

/-- Source: `sample_movie` (`bpmf.cpp` lines 86-113, the build without `TEST_SAMPLE`).
`inverse` and `llt` are Eigen's
`inverse()` and `llt().matrixL()`; `r` is the vector produced by `nrandn(num_feat)`.
The result is the value of `s` after the call: `s.col(mm) = chol * r + mu;`. -/
def sample_movie (inverse llt : Matrix (Fin num_feat) (Fin num_feat) K → Matrix (Fin num_feat) (Fin num_feat) K)
    (s : Matrix (Fin num_feat) (Fin nc) K) (mm : Fin nc) (mat : SparseMatrixD K nr nc)
    (mean_rating : K) (samples : Matrix (Fin num_feat) (Fin nr) K) (alpha : Int)
    (mu_u : Fin num_feat → K) (Lambda_u : Matrix (Fin num_feat) (Fin num_feat) K)
    (r : Fin num_feat → K) : Matrix (Fin num_feat) (Fin nc) K :=
  let covar := sample_movie_covar inverse mm mat mean_rating samples alpha Lambda_u
  let mu := sample_movie_mu inverse mm mat mean_rating samples alpha mu_u Lambda_u
  let chol := llt covar
  fun i j => if j = mm then (chol *ᵥ r + mu) i else s i j

end SampleMovie

/-! ## IEEE special values -/

/-- A `double` whose value may be one of the IEEE 754 special values: used for the
quotients of the source whose divisor can be zero.  Signed zeros are not modelled
(a zero divisor in the source is an integer converted to `double`, hence `+0`). -/
inductive Dbl (K : Type) where
  | finite (x : K)
  | posInf
  | negInf
  | nan

namespace Dbl

variable [LinearOrderedField K]

/-- True for `finite _`. -/
def isFinite : Dbl K → Bool
  | finite _ => true
  | _ => false

/-- IEEE 754 addition on the special values. -/
def add : Dbl K → Dbl K → Dbl K
  | finite x, finite y => finite (x + y)
  | finite _, posInf => posInf
  | finite _, negInf => negInf
  | posInf, finite _ => posInf
  | posInf, posInf => posInf
  | negInf, finite _ => negInf
  | negInf, negInf => negInf
  | _, _ => nan

/-- IEEE 754 negation. -/
def neg : Dbl K → Dbl K
  | finite x => finite (-x)
  | posInf => negInf
  | negInf => posInf
  | nan => nan

/-- IEEE 754 subtraction. -/
def sub (a b : Dbl K) : Dbl K := add a (neg b)

/-- IEEE 754 multiplication on the special values (`0 * inf = NaN`). -/
def mul : Dbl K → Dbl K → Dbl K
  | finite x, finite y => finite (x * y)
  | finite x, posInf => if x = 0 then nan else if 0 < x then posInf else negInf
  | finite x, negInf => if x = 0 then nan else if 0 < x then negInf else posInf
  | posInf, finite y => if y = 0 then nan else if 0 < y then posInf else negInf
  | negInf, finite y => if y = 0 then nan else if 0 < y then negInf else posInf
  | posInf, posInf => posInf
  | posInf, negInf => negInf
  | negInf, posInf => negInf
  | negInf, negInf => posInf
  | _, _ => nan

/-- IEEE 754 division on the special values (`0 / 0 = NaN`, `x / 0 = ±inf`). -/
def div : Dbl K → Dbl K → Dbl K
  | finite x, finite y =>
      if y = 0 then (if x = 0 then nan else if 0 < x then posInf else negInf)
      else finite (x / y)
  | finite _, posInf => finite 0
  | finite _, negInf => finite 0
  | posInf, finite y => if 0 ≤ y then posInf else negInf
  | negInf, finite y => if 0 ≤ y then negInf else posInf
  | _, _ => nan

/-- Product of two dense matrices of `Dbl` values, each entry summed in index order. -/
def matMul {n : Nat} (A B : Fin n → Fin n → Dbl K) : Fin n → Fin n → Dbl K :=
  fun i j => (List.finRange n).foldl (fun acc k => add acc (mul (A i k) (B k j))) (finite 0)

end Dbl

/-! ## `eval_probe_vec` -/

section Evaluator

variable [LinearOrderedField K]

/-- Source: `double prediction = sample_m.col(it.col()).dot(sample_u.col(it.row())) + mean_rating;`
for the probe entry in row `r` and column `c`. -/
def prediction (sample_m : Matrix (Fin num_feat) (Fin nc) K)
    (sample_u : Matrix (Fin num_feat) (Fin nr) K) (mean_rating : K) (r : Fin nr) (c : Fin nc) : K :=
  (fun i => sample_m i c) ⬝ᵥ (fun i => sample_u i r) + mean_rating

/-- Body of the inner loop of `eval_probe_vec` for the entry `it` of column `k`:
`correct += (it.value() < log10(200)) == (prediction < log10(200)); diff += abs(it.value() - prediction);`
with `correct` an `unsigned` counter. -/
def eval_probe_step (log10_200 : K) (sample_m : Matrix (Fin num_feat) (Fin nc) K)
    (sample_u : Matrix (Fin num_feat) (Fin nr) K) (mean_rating : K) (k : Fin nc)
    (acc : Nat × K) (it : Fin nr × K) : Nat × K :=
  let p := prediction sample_m sample_u mean_rating it.1 k
  ((acc.1 + if decide (it.2 < log10_200) = decide (p < log10_200) then 1 else 0) % 2 ^ 32,
   acc.2 + |it.2 - p|)

/-- Source: `eval_probe_vec` (`bpmf.cpp` lines 69-84), over the global probe matrix `P`.
`log10_200` is the value of `log10(200)`. -/
def eval_probe_vec (log10_200 : K) (P : SparseMatrixD K nr nc)
    (sample_m : Matrix (Fin num_feat) (Fin nc) K) (sample_u : Matrix (Fin num_feat) (Fin nr) K)
    (mean_rating : K) : Dbl K × Dbl K :=
  let n : Nat := P.nonZeros % 2 ^ 32
  let acc := (List.finRange nc).foldl
    (fun acc k => (P.inner k).foldl (eval_probe_step log10_200 sample_m sample_u mean_rating k) acc)
    ((0 : Nat), (0 : K))
  (Dbl.div (Dbl.finite (acc.1 : K)) (Dbl.finite (n : K)),
   Dbl.div (Dbl.finite acc.2) (Dbl.finite (n : K)))

/-- All stored entries of a sparse matrix as `(row, column, value)`, in iteration order
(columns ascending, entries of a column in storage order). -/
def SparseMatrixD.triples (P : SparseMatrixD K nr nc) : List (Fin nr × Fin nc × K) :=
  (List.finRange nc).flatMap fun k => (P.inner k).map fun it => (it.1, k, it.2)

end Evaluator

/-! ## Transposition -/

/-- Columns of the transpose: column `u` lists the entries of row `u`, by ascending
original column. -/
def transposeInner {rows cols : Nat} (inner : Fin cols → List (Fin rows × K)) :
    Fin rows → List (Fin cols × K) :=
  fun u => (List.finRange cols).flatMap fun c =>
    ((inner c).filter fun e => e.1 = u).map fun e => (c, e.2)

/-- Source: `M.transpose()` evaluated into a column-major `SparseMatrixD`; the transpose
stores as many entries as `M`. -/
def SparseMatrixD.transpose (M : SparseMatrixD K nr nc) : SparseMatrixD K nc nr where
  inner := transposeInner M.inner
  nnz_lt := by
    have hrow : ∀ l : List (Fin nr × K),
        (∑ u : Fin nr, (l.filter fun e => e.1 = u).length) = l.length := by
      intro l
      induction l with
      | nil => simp
      | cons e rest ih =>
        have h : ∀ u : Fin nr, ((e :: rest).filter fun e => e.1 = u).length
            = (if e.1 = u then 1 else 0) + (rest.filter fun e => e.1 = u).length := by
          intro u
          by_cases hu : e.1 = u
          · simp [List.filter_cons, hu, Nat.add_comm]
          · simp [List.filter_cons, hu]
        simp only [h, Finset.sum_add_distrib, ih, List.length_cons]
        simp [Nat.add_comm]
    have hcount : countStored (transposeInner M.inner) = countStored M.inner := by
      unfold countStored transposeInner
      rw [← Fin.sum_univ_def, ← Fin.sum_univ_def]
      simp only [List.length_flatMap, List.length_map, Function.comp_def]
      simp only [← Fin.sum_univ_def]
      rw [Finset.sum_comm]
      exact Finset.sum_congr rfl fun c _ => hrow (M.inner c)
    rw [hcount]
    exact M.nnz_lt

/-! ## `run` -/

section Run

variable [LinearOrderedField K]

/-- One diagnostic line printed by `run`: the iteration index `i` and the pair returned
by `eval_probe_vec` (printed as `100 * first` and `second`).  The two matrix norms and
the samples-per-second figure on the same line are not modelled. -/
structure Line (K : Type) where
  iter : Nat
  eval : Dbl K × Dbl K

/-- The routines `run` uses that are not defined in `bpmf.cpp`. -/
structure Lib (K G : Type) (num_feat : Nat) where
  /-- Eigen: `inverse()`. -/
  inverse : Matrix (Fin num_feat) (Fin num_feat) K → Matrix (Fin num_feat) (Fin num_feat) K
  /-- Eigen: `llt().matrixL()`. -/
  llt : Matrix (Fin num_feat) (Fin num_feat) K → Matrix (Fin num_feat) (Fin num_feat) K
  /-- The vector `nrandn(num_feat)` and the generator state after drawing it. -/
  nrandn : G → (Fin num_feat → K) × G
  /-- The call `CondNormalWishart(samples, mu0, b0, WI, df)` of `run` (five arguments). -/
  CondNormalWishart : (n : Nat) → Matrix (Fin num_feat) (Fin n) K → (Fin num_feat → K) → Int →
    Matrix (Fin num_feat) (Fin num_feat) K → Int → G →
    ((Fin num_feat → K) × Matrix (Fin num_feat) (Fin num_feat) K) × G
  /-- The value of `log10(200)`. -/
  log10_200 : K

/-- The global variables of `bpmf.cpp` that `run` reads or writes, the state of the
random generator and the lines printed so far. -/
@[ext]
structure Globals (K G : Type) (num_feat nr nc : Nat) where
  M : SparseMatrixD K nr nc
  P : SparseMatrixD K nr nc
  mean_rating : K
  mu_u : Fin num_feat → K
  mu_m : Fin num_feat → K
  Lambda_u : Matrix (Fin num_feat) (Fin num_feat) K
  Lambda_m : Matrix (Fin num_feat) (Fin num_feat) K
  sample_u : Matrix (Fin num_feat) (Fin nr) K
  sample_m : Matrix (Fin num_feat) (Fin nc) K
  WI_u : Matrix (Fin num_feat) (Fin num_feat) K
  mu0_u : Fin num_feat → K
  WI_m : Matrix (Fin num_feat) (Fin num_feat) K
  mu0_m : Fin num_feat → K
  rng : G
  out : List (Line K)

/-- Source: `const int b0_u = 2;`. -/
def b0_u : Int := 2

/-- Source: `const int b0_m = 2;`. -/
def b0_m : Int := 2

variable {G : Type}

/-- Source: `sample_movie(sample_m, mm, M, mean_rating, sample_u, alpha, mu_m, Lambda_m);`. -/
def call_sample_movie_m (lib : Lib K G num_feat) (st : Globals K G num_feat nr nc) (mm : Fin nc) :
    Globals K G num_feat nr nc :=
  let r := lib.nrandn st.rng
  { st with
    sample_m := sample_movie lib.inverse lib.llt st.sample_m mm st.M st.mean_rating st.sample_u
      alpha st.mu_m st.Lambda_m r.1
    rng := r.2 }

/-- Source: `sample_movie(sample_u, uu, Mt, mean_rating, sample_m, alpha, mu_u, Lambda_u);`. -/
def call_sample_movie_u (lib : Lib K G num_feat) (Mt : SparseMatrixD K nc nr)
    (st : Globals K G num_feat nr nc) (uu : Fin nr) : Globals K G num_feat nr nc :=
  let r := lib.nrandn st.rng
  { st with
    sample_u := sample_movie lib.inverse lib.llt st.sample_u uu Mt st.mean_rating st.sample_m
      alpha st.mu_u st.Lambda_u r.1
    rng := r.2 }

/-- Source: `tie(mu_m, Lambda_m) = CondNormalWishart(sample_m, mu0_m, b0_m, WI_m, df_m);`. -/
def sample_hyper_m (lib : Lib K G num_feat) (st : Globals K G num_feat nr nc) :
    Globals K G num_feat nr nc :=
  let h := lib.CondNormalWishart nc st.sample_m st.mu0_m b0_m st.WI_m (num_feat : Int) st.rng
  { st with mu_m := h.1.1, Lambda_m := h.1.2, rng := h.2 }

/-- Source: `tie(mu_u, Lambda_u) = CondNormalWishart(sample_u, mu0_u, b0_u, WI_u, df_u);`. -/
def sample_hyper_u (lib : Lib K G num_feat) (st : Globals K G num_feat nr nc) :
    Globals K G num_feat nr nc :=
  let h := lib.CondNormalWishart nr st.sample_u st.mu0_u b0_u st.WI_u (num_feat : Int) st.rng
  { st with mu_u := h.1.1, Lambda_u := h.1.2, rng := h.2 }

/-- Source: `for(int mm = 0; mm < M.cols(); ++mm) { sample_movie(sample_m, mm, ...); }`. -/
def movie_loop (lib : Lib K G num_feat) (st : Globals K G num_feat nr nc) :
    Globals K G num_feat nr nc :=
  (List.finRange nc).foldl (call_sample_movie_m lib) st

/-- Source: `for(int uu = 0; uu < M.rows(); ++uu) { sample_movie(sample_u, uu, Mt, ...); }`. -/
def user_loop (lib : Lib K G num_feat) (Mt : SparseMatrixD K nc nr)
    (st : Globals K G num_feat nr nc) : Globals K G num_feat nr nc :=
  (List.finRange nr).foldl (call_sample_movie_u lib Mt) st

/-- Source: `auto eval = eval_probe_vec(sample_m, sample_u, mean_rating); ... printf(...)`. -/
def report (lib : Lib K G num_feat) (st : Globals K G num_feat nr nc) (i : Nat) :
    Globals K G num_feat nr nc :=
  { st with
    out := st.out ++ [⟨i, eval_probe_vec lib.log10_200 st.P st.sample_m st.sample_u st.mean_rating⟩] }

/-- Body of the loop of `run` for the iteration counter `i` (`bpmf.cpp` lines 153-177). -/
def iteration (lib : Lib K G num_feat) (Mt : SparseMatrixD K nc nr)
    (st : Globals K G num_feat nr nc) (i : Nat) : Globals K G num_feat nr nc :=
  report lib (user_loop lib Mt (movie_loop lib (sample_hyper_u lib (sample_hyper_m lib st)))) i

/-- Source: `run` (`bpmf.cpp` lines 145-179): `Mt = M.transpose()`, then
`for(int i=0; i<nsims; ++i)` around the body. -/
def run (lib : Lib K G num_feat) (st : Globals K G num_feat nr nc) : Globals K G num_feat nr nc :=
  let Mt := st.M.transpose
  (List.range nsims).foldl (iteration lib Mt) st

/-- The generator state after `k` calls of `nrandn`. -/
def rngAfter (lib : Lib K G num_feat) (g : G) (k : Nat) : G :=
  (fun g => (lib.nrandn g).2)^[k] g

/-- The vector returned by call number `k` (from zero) of `nrandn` starting in state `g`. -/
def draw (lib : Lib K G num_feat) (g : G) (k : Nat) : Fin num_feat → K :=
  (lib.nrandn (rngAfter lib g k)).1

end Run

/-! ## `HyperParams::sample` (`bpmf.h`) -/

section Hyper

variable [LinearOrderedField K] {num_latent : Nat} {G : Type}

/-- Source: `struct HyperParams`; the vectors and matrices hold `double` values that
may be IEEE special values.  The constant members are `b0` and `df` below. -/
structure HyperParams (K : Type) (num_latent : Nat) where
  mu0 : Fin num_latent → Dbl K
  WI : Fin num_latent → Fin num_latent → Dbl K
  mu : Fin num_latent → Dbl K
  LambdaF : Fin num_latent → Fin num_latent → Dbl K
  LambdaU : Fin num_latent → Fin num_latent → Dbl K
  LambdaL : Fin num_latent → Fin num_latent → Dbl K

/-- Source: `const int b0 = 2;`. -/
def HyperParams.b0 : Int := 2

/-- Source: `const int df = num_latent;`. -/
def HyperParams.df (num_latent : Nat) : Int := num_latent

/-- Source: the argument `sum / N` of `HyperParams::sample`: every component of `sum`
divided by `N` converted to `double`. -/
def HyperParams.sample_Um (N : Int) (sum : Fin num_latent → Dbl K) : Fin num_latent → Dbl K :=
  fun i => Dbl.div (sum i) (Dbl.finite (N : K))

/-- Source: `LambdaU.triangularView<Eigen::Upper>()`. -/
def triangularViewUpper (A : Fin num_latent → Fin num_latent → Dbl K) :
    Fin num_latent → Fin num_latent → Dbl K :=
  fun i j => if i ≤ j then A i j else Dbl.finite 0

/-- Source: `HyperParams::sample` (`bpmf.h` lines 67-72).  `CondNormalWishart` is the
seven-argument routine declared in `bpmf.h`; `g` is the state of the random generator. -/
def HyperParams.sample
    (CondNormalWishart : Int → (Fin num_latent → Fin num_latent → Dbl K) → (Fin num_latent → Dbl K) →
      (Fin num_latent → Dbl K) → Dbl K → (Fin num_latent → Fin num_latent → Dbl K) → Int → G →
      ((Fin num_latent → Dbl K) × (Fin num_latent → Fin num_latent → Dbl K)) × G)
    (hp : HyperParams K num_latent) (N : Int) (sum : Fin num_latent → Dbl K)
    (cov : Fin num_latent → Fin num_latent → Dbl K) (g : G) : HyperParams K num_latent × G :=
  let r := CondNormalWishart N cov (HyperParams.sample_Um N sum) hp.mu0
    (Dbl.finite (HyperParams.b0 : K)) hp.WI (HyperParams.df num_latent) g
  let LambdaU := r.1.2
  ({ hp with
      mu := r.1.1
      LambdaU := LambdaU
      LambdaF := Dbl.matMul (fun i j => triangularViewUpper LambdaU j i) LambdaU
      LambdaL := fun i j => LambdaU j i },
   r.2)

/-- Modelled from the spec: the body of `CondNormalWishart` is not in the sources; step 1
of the conjugate update, `kappa' = b0 + N`. -/
def CondNormalWishart_kappa (N : Int) (kappa : Dbl K) : Dbl K :=
  Dbl.add kappa (Dbl.finite (N : K))

/-- Modelled from the spec: the body of `CondNormalWishart` is not in the sources; step 2
of the conjugate update, `mu' = (b0·mu0 + N·Um) / kappa'`. -/
def CondNormalWishart_mean (N : Int) (Um mu : Fin num_latent → Dbl K) (kappa : Dbl K) :
    Fin num_latent → Dbl K :=
  fun i => Dbl.div (Dbl.add (Dbl.mul kappa (mu i)) (Dbl.mul (Dbl.finite (N : K)) (Um i)))
    (CondNormalWishart_kappa N kappa)

/-- Modelled from the spec: the body of `CondNormalWishart` is not in the sources; step 3
of the conjugate update, `T'^-1 = WI^-1 + N·C + (b0·N / kappa')·(mu0 − Um)(mu0 − Um)^T`,
with `Tinv` standing for `WI^-1`. -/
def CondNormalWishart_invScale (N : Int) (C : Fin num_latent → Fin num_latent → Dbl K)
    (Um mu : Fin num_latent → Dbl K) (kappa : Dbl K)
    (Tinv : Fin num_latent → Fin num_latent → Dbl K) : Fin num_latent → Fin num_latent → Dbl K :=
  fun i j =>
    Dbl.add (Dbl.add (Tinv i j) (Dbl.mul (Dbl.finite (N : K)) (C i j)))
      (Dbl.mul (Dbl.div (Dbl.mul kappa (Dbl.finite (N : K))) (CondNormalWishart_kappa N kappa))
        (Dbl.mul (Dbl.sub (mu i) (Um i)) (Dbl.sub (mu j) (Um j))))

/-- Modelled from the spec: the body of `CondNormalWishart` is not in the sources; step 4
of the conjugate update, `df' = df + N`. -/
def CondNormalWishart_df (N : Int) (nu : Int) : Int :=
  nu + N

end Hyper

/-! ## Reference quantities used in the statements -/

section Reference

variable [CommRing K]

/-- The matrix whose columns are the latent vectors `samples.col(j)` of the entities `j`
with a stored entry in column `mm` of `mat`, in storage order. -/
def gatheredE (mm : Fin nc) (mat : SparseMatrixD K nr nc)
    (samples : Matrix (Fin num_feat) (Fin nr) K) :
    Matrix (Fin num_feat) (Fin (mat.colNonZeros mm)) K :=
  fun r k => samples r ((mat.inner mm).get k).1

/-- The stored entries of column `mm` of `mat`, in storage order, minus `mean_rating`. -/
def gatheredRR (mm : Fin nc) (mat : SparseMatrixD K nr nc) (mean_rating : K) :
    Fin (mat.colNonZeros mm) → K :=
  fun k => ((mat.inner mm).get k).2 - mean_rating

/-- The value the sampler is specified to write: `chol(S)*z + S*(alpha*E*rr + Lambda*mu)`
with `S = inverse (Lambda + alpha*E*E^T)`, `E` and `rr` gathered from column `mm`. -/
def posterior_draw (inverse llt : Matrix (Fin num_feat) (Fin num_feat) K → Matrix (Fin num_feat) (Fin num_feat) K)
    (mm : Fin nc) (mat : SparseMatrixD K nr nc) (mean_rating : K)
    (samples : Matrix (Fin num_feat) (Fin nr) K) (alpha : Int) (mu : Fin num_feat → K)
    (Lambda : Matrix (Fin num_feat) (Fin num_feat) K) (z : Fin num_feat → K) : Fin num_feat → K :=
  let E := gatheredE mm mat samples
  let rr := gatheredRR mm mat mean_rating
  let S := inverse (Lambda + (alpha : K) • (E * Eᵀ))
  llt S *ᵥ z + S *ᵥ ((alpha : K) • (E *ᵥ rr) + Lambda *ᵥ mu)

end Reference

/-! ## Reference quantities for the evaluator -/

section EvaluatorReference

variable [LinearOrderedField K]

/-- Number of probe entries `(r, c, v)` for which `v < log10(200)` holds exactly when
`prediction(r, c) < log10(200)` holds. -/
def probe_correct (log10_200 : K) (P : SparseMatrixD K nr nc)
    (sample_m : Matrix (Fin num_feat) (Fin nc) K) (sample_u : Matrix (Fin num_feat) (Fin nr) K)
    (mean_rating : K) : Nat :=
  (P.triples.filter fun e =>
    decide (e.2.2 < log10_200 ↔ prediction sample_m sample_u mean_rating e.1 e.2.1 < log10_200)).length

/-- Sum of `|v - prediction(r, c)|` over the probe entries `(r, c, v)`. -/
def probe_diff (P : SparseMatrixD K nr nc)
    (sample_m : Matrix (Fin num_feat) (Fin nc) K) (sample_u : Matrix (Fin num_feat) (Fin nr) K)
    (mean_rating : K) : K :=
  (P.triples.map fun e => |e.2.2 - prediction sample_m sample_u mean_rating e.1 e.2.1|).sum

end EvaluatorReference

/-! ## `sample_movie` in rounded arithmetic

A second reading of lines 100-105 of `bpmf.cpp` in which every arithmetic operation on
`double` values is rounded once to the nearest binary64 number (ties to even, exponent
range unbounded, no fused multiply-add, sums accumulated in index order).  Values are the
rationals that doubles denote. -/

section Rounded

/-- Rounding of a rational to the nearest number with a 53-bit significand, ties to even. -/
def fl (q : ℚ) : ℚ :=
  if q = 0 then 0 else
    let e : ℤ := Int.log 2 |q| - 52
    let m : ℚ := q / (2 : ℚ) ^ e
    let f : ℤ := ⌊m⌋
    let r : ℚ := m - f
    let n : ℤ :=
      if r < 1 / 2 then f else if 1 / 2 < r then f + 1 else if f % 2 = 0 then f else f + 1
    (n : ℚ) * (2 : ℚ) ^ e

/-- Rounded dot product, accumulated from `0` in index order. -/
def fl_dot {n : Nat} (u v : Fin n → ℚ) : ℚ :=
  (List.finRange n).foldl (fun acc k => fl (acc + fl (u k * v k))) 0

/-- Source: `Lambda_u + MMs` with `MM = E * E.transpose()` and `MMs = alpha * MM`, every
operation rounded. -/
def sample_movie_precision_fl (mm : Fin nc) (mat : SparseMatrixD ℚ nr nc) (mean_rating : ℚ)
    (samples : Matrix (Fin num_feat) (Fin nr) ℚ) (alpha : Int)
    (Lambda_u : Matrix (Fin num_feat) (Fin num_feat) ℚ) : Matrix (Fin num_feat) (Fin num_feat) ℚ :=
  let E := (sample_movie_gather mm mat mean_rating samples).1
  fun i j => fl (Lambda_u i j + fl ((alpha : ℚ) * fl_dot (E i) (E j)))

end Rounded

/-! ## A small instance

The two-by-two rating matrix `{(0,0,4),(0,1,2),(1,0,3),(1,1,5)}` with one latent feature,
over the rationals; used to instantiate the general statements. -/

section Toy

/-- Ratings `(row, column, value)`: `(0,0,4)`, `(1,0,3)`, `(0,1,2)`, `(1,1,5)`. -/
def toyM : SparseMatrixD ℚ 2 2 where
  inner := fun k => if k = 0 then [(0, 4), (1, 3)] else [(0, 2), (1, 5)]
  nnz_lt := by decide

/-- A probe matrix with the single entry `(0,0,3)`. -/
def toyP : SparseMatrixD ℚ 2 2 where
  inner := fun k => if k = 0 then [(0, 3)] else []
  nnz_lt := by decide

/-- A probe matrix without stored entries. -/
def emptyP : SparseMatrixD ℚ 2 2 where
  inner := fun _ => []
  nnz_lt := by decide

/-- A rating matrix whose column `0` has no stored entry. -/
def sparseCol : SparseMatrixD ℝ 2 2 where
  inner := fun k => if k = 0 then [] else [(0, 2), (1, 5)]
  nnz_lt := by decide

/-- Library routines for one latent feature over the rationals: the exact inverse of a
one-by-one matrix; `llt` is the identity map (the Cholesky factor of the one-by-one
matrices `0` and `1`); every draw is `0.25`; `CondNormalWishart` returns the prior
`(mu0, WI)`; `2.301` stands for `log10(200)`. -/
def toyLib : Lib ℚ Unit 1 where
  inverse := fun A _ _ => (A 0 0)⁻¹
  llt := fun A => A
  nrandn := fun g => (fun _ => 1 / 4, g)
  CondNormalWishart := fun _ _ mu0 _ WI _ g => ((mu0, WI), g)
  log10_200 := 2301 / 1000

/-- The globals after `init()` for `toyM` and `toyP`: zero latent matrices, identity
precisions, zero means, `mean_rating = 14 / 4`. -/
def toyGlobals : Globals ℚ Unit 1 2 2 where
  M := toyM
  P := toyP
  mean_rating := 7 / 2
  mu_u := 0
  mu_m := 0
  Lambda_u := 1
  Lambda_m := 1
  sample_u := 0
  sample_m := 0
  WI_u := 1
  mu0_u := 0
  WI_m := 1
  mu0_m := 0
  rng := ()
  out := []

end Toy

/-! ## Facts about the gather loop -/

section GatherFacts

variable [CommRing K]

theorem gatherLoop_fst {n : Nat} (samples : Matrix (Fin num_feat) (Fin nr) K) (mean_rating : K)
    (l : List (Fin nr × K)) (i : Nat) (acc : Matrix (Fin num_feat) (Fin n) K × (Fin n → K))
    (r : Fin num_feat) (c : Fin n) :
    (gatherLoop samples mean_rating l i acc).1 r c =
      if h : i ≤ c.val ∧ c.val - i < l.length then samples r (l.get ⟨c.val - i, h.2⟩).1
      else acc.1 r c := by
  induction l generalizing i acc with
  | nil => simp [gatherLoop]
  | cons it rest ih =>
    rw [gatherLoop, ih]
    by_cases h1 : i + 1 ≤ c.val ∧ c.val - (i + 1) < rest.length
    · have h2 : i ≤ c.val ∧ c.val - i < (it :: rest).length := by
        constructor
        · omega
        · simp only [List.length_cons]; omega
      rw [dif_pos h1, dif_pos h2]
      have h3 : c.val - i = (c.val - (i + 1)) + 1 := by omega
      simp only [List.get_eq_getElem, h3, List.getElem_cons_succ]
    · rw [dif_neg h1]
      by_cases h4 : c.val = i
      · have h2 : i ≤ c.val ∧ c.val - i < (it :: rest).length := by
          constructor
          · omega
          · simp only [List.length_cons]; omega
        rw [dif_pos h2]
        have h3 : c.val - i = 0 := by omega
        simp [h4]
      · have h2 : ¬ (i ≤ c.val ∧ c.val - i < (it :: rest).length) := by
          simp only [List.length_cons]; omega
        rw [dif_neg h2]
        simp [h4]

theorem gatherLoop_snd {n : Nat} (samples : Matrix (Fin num_feat) (Fin nr) K) (mean_rating : K)
    (l : List (Fin nr × K)) (i : Nat) (acc : Matrix (Fin num_feat) (Fin n) K × (Fin n → K))
    (c : Fin n) :
    (gatherLoop samples mean_rating l i acc).2 c =
      if h : i ≤ c.val ∧ c.val - i < l.length then (l.get ⟨c.val - i, h.2⟩).2 - mean_rating
      else acc.2 c := by
  induction l generalizing i acc with
  | nil => simp [gatherLoop]
  | cons it rest ih =>
    rw [gatherLoop, ih]
    by_cases h1 : i + 1 ≤ c.val ∧ c.val - (i + 1) < rest.length
    · have h2 : i ≤ c.val ∧ c.val - i < (it :: rest).length := by
        constructor
        · omega
        · simp only [List.length_cons]; omega
      rw [dif_pos h1, dif_pos h2]
      have h3 : c.val - i = (c.val - (i + 1)) + 1 := by omega
      simp only [List.get_eq_getElem, h3, List.getElem_cons_succ]
    · rw [dif_neg h1]
      by_cases h4 : c.val = i
      · have h2 : i ≤ c.val ∧ c.val - i < (it :: rest).length := by
          constructor
          · omega
          · simp only [List.length_cons]; omega
        rw [dif_pos h2]
        have h3 : c.val - i = 0 := by omega
        simp [h4]
      · have h2 : ¬ (i ≤ c.val ∧ c.val - i < (it :: rest).length) := by
          simp only [List.length_cons]; omega
        rw [dif_neg h2]
        simp [h4]

theorem sample_movie_gather_fst (mm : Fin nc) (mat : SparseMatrixD K nr nc) (mean_rating : K)
    (samples : Matrix (Fin num_feat) (Fin nr) K) :
    (sample_movie_gather mm mat mean_rating samples).1 = gatheredE mm mat samples := by
  funext r k
  have hk : k.val < (mat.inner mm).length := k.isLt
  rw [sample_movie_gather, gatherLoop_fst]
  have h : 0 ≤ k.val ∧ k.val - 0 < (mat.inner mm).length := ⟨Nat.zero_le _, by simpa using hk⟩
  rw [dif_pos h]
  rfl

theorem sample_movie_gather_snd (mm : Fin nc) (mat : SparseMatrixD K nr nc) (mean_rating : K)
    (samples : Matrix (Fin num_feat) (Fin nr) K) :
    (sample_movie_gather mm mat mean_rating samples).2
      = gatheredRR mm mat mean_rating := by
  funext k
  have hk : k.val < (mat.inner mm).length := k.isLt
  rw [sample_movie_gather, gatherLoop_snd]
  have h : 0 ≤ k.val ∧ k.val - 0 < (mat.inner mm).length := ⟨Nat.zero_le _, by simpa using hk⟩
  rw [dif_pos h]
  rfl

end GatherFacts

/-! ## `sample_movie`: the written column and the frame -/

section SampleMovieFacts

variable [CommRing K]

theorem sample_movie_col_eq
    (inverse llt : Matrix (Fin num_feat) (Fin num_feat) K → Matrix (Fin num_feat) (Fin num_feat) K)
    (s : Matrix (Fin num_feat) (Fin nc) K) (mm : Fin nc) (mat : SparseMatrixD K nr nc)
    (mean_rating : K) (samples : Matrix (Fin num_feat) (Fin nr) K) (alpha : Int)
    (mu : Fin num_feat → K) (Lambda : Matrix (Fin num_feat) (Fin num_feat) K)
    (z : Fin num_feat → K) :
    (fun i => sample_movie inverse llt s mm mat mean_rating samples alpha mu Lambda z i mm)
      = posterior_draw inverse llt mm mat mean_rating samples alpha mu Lambda z := by
  have hcomm : (fun i => (gatheredE mm mat samples *ᵥ gatheredRR mm mat mean_rating) i * (alpha : K))
      = (alpha : K) • (gatheredE mm mat samples *ᵥ gatheredRR mm mat mean_rating) := by
    funext k
    simp [mul_comm]
  funext i
  simp only [sample_movie, if_true, sample_movie_mu, sample_movie_covar, sample_movie_precision,
    sample_movie_MM, sample_movie_MMrr, sample_movie_gather_fst, sample_movie_gather_snd,
    posterior_draw, hcomm]

theorem sample_movie_other_col
    (inverse llt : Matrix (Fin num_feat) (Fin num_feat) K → Matrix (Fin num_feat) (Fin num_feat) K)
    (s : Matrix (Fin num_feat) (Fin nc) K) (mm : Fin nc) (mat : SparseMatrixD K nr nc)
    (mean_rating : K) (samples : Matrix (Fin num_feat) (Fin nr) K) (alpha : Int)
    (mu : Fin num_feat → K) (Lambda : Matrix (Fin num_feat) (Fin num_feat) K)
    (z : Fin num_feat → K) (j : Fin nc) (hj : j ≠ mm) (i : Fin num_feat) :
    sample_movie inverse llt s mm mat mean_rating samples alpha mu Lambda z i j = s i j := by
  simp [sample_movie, hj]

/-- C1: for every entity index `mm`, sparse matrix `mat`, opposite-side latent matrix
`samples`, prior `(mu, Lambda)` and draw vector `z`, `sample_movie` sets column `mm` of the
target matrix to `chol(S)*z + S*(alpha*E*rr + Lambda*mu)`, where the columns of `E` are the
latent vectors `samples.col(j)` of exactly the entities `j` with a stored entry in column
`mm` of `mat` (in storage order), `rr` holds those entries minus `mean_rating`,
`S = inverse (Lambda + alpha*E*E^T)` and `chol(S) = llt S`. -/
theorem sample_movie_writes_posterior_draw
    (inverse llt : Matrix (Fin num_feat) (Fin num_feat) K → Matrix (Fin num_feat) (Fin num_feat) K)
    (s : Matrix (Fin num_feat) (Fin nc) K) (mm : Fin nc) (mat : SparseMatrixD K nr nc)
    (mean_rating : K) (samples : Matrix (Fin num_feat) (Fin nr) K) (alpha : Int)
    (mu : Fin num_feat → K) (Lambda : Matrix (Fin num_feat) (Fin num_feat) K)
    (z : Fin num_feat → K) :
    let E : Matrix (Fin num_feat) (Fin (mat.colNonZeros mm)) K :=
      fun r k => samples r ((mat.inner mm).get k).1
    let rr : Fin (mat.colNonZeros mm) → K := fun k => ((mat.inner mm).get k).2 - mean_rating
    let S := inverse (Lambda + (alpha : K) • (E * Eᵀ))
    (fun i => sample_movie inverse llt s mm mat mean_rating samples alpha mu Lambda z i mm)
      = llt S *ᵥ z + S *ᵥ ((alpha : K) • (E *ᵥ rr) + Lambda *ᵥ mu) := by
  intro E rr S
  rw [sample_movie_col_eq]
  rfl

end SampleMovieFacts

/-! ## The loops of `run` -/

section RunFacts

variable [LinearOrderedField K] {G : Type}

theorem foldl_index_invariant {α σ : Type} (f : σ → α → σ) (l : List α) (Inv : Nat → σ → Prop)
    (st : σ) (h0 : Inv 0 st)
    (hstep : ∀ (k : Nat) (hk : k < l.length) (s : σ), Inv k s → Inv (k + 1) (f s (l.get ⟨k, hk⟩))) :
    Inv l.length (l.foldl f st) := by
  induction l generalizing Inv st with
  | nil => exact h0
  | cons a rest ih =>
    rw [List.foldl_cons, List.length_cons]
    apply ih (fun k s => Inv (k + 1) s)
    · exact hstep 0 (by simp) st h0
    · intro k hk s hs
      exact hstep (k + 1) (by simpa using hk) s hs

theorem foldl_finRange_invariant {σ : Type} {n : Nat} (f : σ → Fin n → σ) (Inv : Nat → σ → Prop)
    (st : σ) (h0 : Inv 0 st) (hstep : ∀ (k : Fin n) (s : σ), Inv k.val s → Inv (k.val + 1) (f s k)) :
    Inv n ((List.finRange n).foldl f st) := by
  have h := foldl_index_invariant f (List.finRange n) Inv st h0 (by
    intro k hk s hs
    have hk' : k < n := by simpa using hk
    have hget : (List.finRange n).get ⟨k, hk⟩ = ⟨k, hk'⟩ := by
      simp [List.getElem_finRange]
    rw [hget]
    exact hstep ⟨k, hk'⟩ s hs)
  simpa using h

omit [LinearOrderedField K] in
theorem rngAfter_succ (lib : Lib K G num_feat) (g : G) (k : Nat) :
    rngAfter lib g (k + 1) = (lib.nrandn (rngAfter lib g k)).2 := by
  simp [rngAfter, Function.iterate_succ_apply']

theorem movie_loop_spec (lib : Lib K G num_feat) (st : Globals K G num_feat nr nc) :
    movie_loop lib st
        = { st with sample_m := (movie_loop lib st).sample_m, rng := rngAfter lib st.rng nc } ∧
      ∀ mm : Fin nc, (fun r => (movie_loop lib st).sample_m r mm)
        = posterior_draw lib.inverse lib.llt mm st.M st.mean_rating st.sample_u alpha
            st.mu_m st.Lambda_m (draw lib st.rng mm.val) := by
  have h := foldl_finRange_invariant (call_sample_movie_m lib)
    (fun k s => s = { st with sample_m := s.sample_m, rng := rngAfter lib st.rng k } ∧
      ∀ mm : Fin nc, mm.val < k → (fun r => s.sample_m r mm)
        = posterior_draw lib.inverse lib.llt mm st.M st.mean_rating st.sample_u alpha
            st.mu_m st.Lambda_m (draw lib st.rng mm.val))
    st ⟨by simp [rngAfter], by intro mm hmm; omega⟩ (by
      intro k s hs
      obtain ⟨hframe, hcols⟩ := hs
      have hM : s.M = st.M := by rw [hframe]
      have hmean : s.mean_rating = st.mean_rating := by rw [hframe]
      have hu : s.sample_u = st.sample_u := by rw [hframe]
      have hmu : s.mu_m = st.mu_m := by rw [hframe]
      have hL : s.Lambda_m = st.Lambda_m := by rw [hframe]
      have hrng : s.rng = rngAfter lib st.rng k.val := by rw [hframe]
      refine ⟨?_, ?_⟩
      · apply Globals.ext <;> simp only [call_sample_movie_m, rngAfter_succ, hrng] <;> rw [hframe]
      · intro mm hmm
        by_cases hk : mm = k
        · subst hk
          have := sample_movie_col_eq lib.inverse lib.llt s.sample_m mm s.M s.mean_rating
            s.sample_u alpha s.mu_m s.Lambda_m (lib.nrandn s.rng).1
          rw [hM, hmean, hu, hmu, hL, hrng] at this
          simpa [call_sample_movie_m, draw, hM, hmean, hu, hmu, hL, hrng] using this
        · have hlt : mm.val < k.val := by
            have : mm.val ≠ k.val := fun h => hk (Fin.ext h)
            omega
          rw [← hcols mm hlt]
          funext r
          exact sample_movie_other_col _ _ _ _ _ _ _ _ _ _ _ mm hk r)
  exact ⟨h.1, fun mm => h.2 mm mm.isLt⟩

theorem user_loop_spec (lib : Lib K G num_feat) (Mt : SparseMatrixD K nc nr)
    (st : Globals K G num_feat nr nc) :
    user_loop lib Mt st
        = { st with sample_u := (user_loop lib Mt st).sample_u, rng := rngAfter lib st.rng nr } ∧
      ∀ uu : Fin nr, (fun r => (user_loop lib Mt st).sample_u r uu)
        = posterior_draw lib.inverse lib.llt uu Mt st.mean_rating st.sample_m alpha
            st.mu_u st.Lambda_u (draw lib st.rng uu.val) := by
  have h := foldl_finRange_invariant (call_sample_movie_u lib Mt)
    (fun k s => s = { st with sample_u := s.sample_u, rng := rngAfter lib st.rng k } ∧
      ∀ uu : Fin nr, uu.val < k → (fun r => s.sample_u r uu)
        = posterior_draw lib.inverse lib.llt uu Mt st.mean_rating st.sample_m alpha
            st.mu_u st.Lambda_u (draw lib st.rng uu.val))
    st ⟨by simp [rngAfter], by intro uu huu; omega⟩ (by
      intro k s hs
      obtain ⟨hframe, hcols⟩ := hs
      have hmean : s.mean_rating = st.mean_rating := by rw [hframe]
      have hm : s.sample_m = st.sample_m := by rw [hframe]
      have hmu : s.mu_u = st.mu_u := by rw [hframe]
      have hL : s.Lambda_u = st.Lambda_u := by rw [hframe]
      have hrng : s.rng = rngAfter lib st.rng k.val := by rw [hframe]
      refine ⟨?_, ?_⟩
      · apply Globals.ext <;> simp only [call_sample_movie_u, rngAfter_succ, hrng] <;> rw [hframe]
      · intro uu huu
        by_cases hk : uu = k
        · subst hk
          have := sample_movie_col_eq lib.inverse lib.llt s.sample_u uu Mt s.mean_rating
            s.sample_m alpha s.mu_u s.Lambda_u (lib.nrandn s.rng).1
          rw [hmean, hm, hmu, hL, hrng] at this
          simpa [call_sample_movie_u, draw, hmean, hm, hmu, hL, hrng] using this
        · have hlt : uu.val < k.val := by
            have : uu.val ≠ k.val := fun h => hk (Fin.ext h)
            omega
          rw [← hcols uu hlt]
          funext r
          exact sample_movie_other_col _ _ _ _ _ _ _ _ _ _ _ uu hk r)
  exact ⟨h.1, fun uu => h.2 uu uu.isLt⟩

theorem iteration_out (lib : Lib K G num_feat) (Mt : SparseMatrixD K nc nr)
    (st : Globals K G num_feat nr nc) (i : Nat) :
    (iteration lib Mt st i).out.map Line.iter = st.out.map Line.iter ++ [i] := by
  have hu := (user_loop_spec lib Mt (movie_loop lib (sample_hyper_u lib (sample_hyper_m lib st)))).1
  have hm := (movie_loop_spec lib (sample_hyper_u lib (sample_hyper_m lib st))).1
  have h1 : (user_loop lib Mt (movie_loop lib (sample_hyper_u lib (sample_hyper_m lib st)))).out
      = st.out := by
    rw [hu]
    show (movie_loop lib (sample_hyper_u lib (sample_hyper_m lib st))).out = st.out
    rw [hm]
    rfl
  simp [iteration, report, h1]

theorem foldl_iteration_out (lib : Lib K G num_feat) (Mt : SparseMatrixD K nc nr) (l : List Nat)
    (st : Globals K G num_feat nr nc) :
    (l.foldl (iteration lib Mt) st).out.map Line.iter = st.out.map Line.iter ++ l := by
  induction l generalizing st with
  | nil => simp
  | cons i rest ih =>
    rw [List.foldl_cons, ih, iteration_out]
    simp

theorem run_out_length (lib : Lib K G num_feat) (st : Globals K G num_feat nr nc) :
    (run lib st).out.length = st.out.length + nsims := by
  have h := congrArg List.length (foldl_iteration_out lib st.M.transpose (List.range nsims) st)
  simpa [run] using h

/-- C2: a call `sample_movie(s, mm, ...)` leaves every column `j != mm` of `s` unchanged; the
number of columns of `s` is the same before and after (both are `nc`); at the call site of
`run` the only globals that change are `sample_m` (in column `mm` alone) and the generator
state: the opposite-side matrix, the rating and probe matrices, `mean_rating` and the
hyperparameters are not modified. -/
theorem sample_movie_frame (lib : Lib K G num_feat) (st : Globals K G num_feat nr nc)
    (s : Matrix (Fin num_feat) (Fin nc) K) (mm : Fin nc) (mat : SparseMatrixD K nr nc)
    (mean_rating : K) (samples : Matrix (Fin num_feat) (Fin nr) K) (alpha : Int)
    (mu : Fin num_feat → K) (Lambda : Matrix (Fin num_feat) (Fin num_feat) K)
    (z : Fin num_feat → K) (j : Fin nc) (hj : j ≠ mm) :
    (fun i => sample_movie lib.inverse lib.llt s mm mat mean_rating samples alpha mu Lambda z i j)
        = (fun i => s i j) ∧
      (fun i => (call_sample_movie_m lib st mm).sample_m i j) = (fun i => st.sample_m i j) ∧
      call_sample_movie_m lib st mm
        = { st with sample_m := (call_sample_movie_m lib st mm).sample_m,
                    rng := (lib.nrandn st.rng).2 } := by
  refine ⟨?_, ?_, rfl⟩
  · funext i
    exact sample_movie_other_col _ _ _ _ _ _ _ _ _ _ _ j hj i
  · funext i
    exact sample_movie_other_col _ _ _ _ _ _ _ _ _ _ _ j hj i

/-- Instance of `sample_movie_frame`: in the toy state, sampling item `0` leaves column `1`. -/
theorem sample_movie_frame_witness :
    (1 : Fin 2) ≠ 0 ∧
      (fun i => sample_movie toyLib.inverse toyLib.llt toyGlobals.sample_m 0 toyM (7 / 2)
          toyGlobals.sample_u 2 0 1 (fun _ => 1 / 4) i 1) = (fun i => toyGlobals.sample_m i 1) :=
  ⟨by decide,
   (sample_movie_frame toyLib toyGlobals toyGlobals.sample_m 0 toyM (7 / 2) toyGlobals.sample_u 2
      0 1 (fun _ => 1 / 4) 1 (by decide)).1⟩

/-- C4: in the body of the loop of `run`, item hyperparameters are resampled first (from
the generator state at the start of the iteration), then user hyperparameters; then every
item column is resampled reading the user matrix as it stood at the start of the iteration
and the fresh item hyperparameters; after all item columns, every user column is resampled
through the transposed rating matrix `Mt`, reading the fully updated item matrix and the
fresh user hyperparameters; the evaluator runs last, on the final matrices.  The generator
states record the order of the draws. -/
theorem iteration_order (lib : Lib K G num_feat) (st : Globals K G num_feat nr nc) (i : Nat) :
    let hm := lib.CondNormalWishart nc st.sample_m st.mu0_m b0_m st.WI_m (num_feat : Int) st.rng
    let hu := lib.CondNormalWishart nr st.sample_u st.mu0_u b0_u st.WI_u (num_feat : Int) hm.2
    let st' := iteration lib st.M.transpose st i
    run lib st = (List.range nsims).foldl (iteration lib st.M.transpose) st ∧
    (st'.mu_m, st'.Lambda_m) = hm.1 ∧ (st'.mu_u, st'.Lambda_u) = hu.1 ∧
    (∀ mm : Fin nc, (fun r => st'.sample_m r mm)
      = posterior_draw lib.inverse lib.llt mm st.M st.mean_rating st.sample_u alpha
          hm.1.1 hm.1.2 (draw lib hu.2 mm.val)) ∧
    (∀ uu : Fin nr, (fun r => st'.sample_u r uu)
      = posterior_draw lib.inverse lib.llt uu st.M.transpose st.mean_rating st'.sample_m alpha
          hu.1.1 hu.1.2 (draw lib (rngAfter lib hu.2 nc) uu.val)) ∧
    st'.out = st.out ++
      [⟨i, eval_probe_vec lib.log10_200 st.P st'.sample_m st'.sample_u st.mean_rating⟩] ∧
    st'.rng = rngAfter lib (rngAfter lib hu.2 nc) nr := by
  intro hm hu st'
  have hU := user_loop_spec lib st.M.transpose
    (movie_loop lib (sample_hyper_u lib (sample_hyper_m lib st)))
  have hM := movie_loop_spec lib (sample_hyper_u lib (sample_hyper_m lib st))
  obtain ⟨hUf, hUc⟩ := hU
  obtain ⟨hMf, hMc⟩ := hM
  have hst' : st' = report lib (user_loop lib st.M.transpose
      (movie_loop lib (sample_hyper_u lib (sample_hyper_m lib st)))) i := rfl
  have hm_m : (user_loop lib st.M.transpose
      (movie_loop lib (sample_hyper_u lib (sample_hyper_m lib st)))).sample_m
      = (movie_loop lib (sample_hyper_u lib (sample_hyper_m lib st))).sample_m := by
    rw [hUf]
  refine ⟨rfl, ?_, ?_, ?_, ?_, ?_, ?_⟩
  · rw [hst', report, hUf]
    show ((movie_loop lib (sample_hyper_u lib (sample_hyper_m lib st))).mu_m,
      (movie_loop lib (sample_hyper_u lib (sample_hyper_m lib st))).Lambda_m) = hm.1
    rw [hMf]
    rfl
  · rw [hst', report, hUf]
    show ((movie_loop lib (sample_hyper_u lib (sample_hyper_m lib st))).mu_u,
      (movie_loop lib (sample_hyper_u lib (sample_hyper_m lib st))).Lambda_u) = hu.1
    rw [hMf]
    rfl
  · intro mm
    have := hMc mm
    rw [hst']
    show (fun r => (user_loop lib st.M.transpose
      (movie_loop lib (sample_hyper_u lib (sample_hyper_m lib st)))).sample_m r mm) = _
    rw [hm_m, this]
    rfl
  · intro uu
    have := hUc uu
    rw [hst']
    show (fun r => (user_loop lib st.M.transpose
      (movie_loop lib (sample_hyper_u lib (sample_hyper_m lib st)))).sample_u r uu) = _
    rw [this]
    show posterior_draw lib.inverse lib.llt uu st.M.transpose
        (movie_loop lib (sample_hyper_u lib (sample_hyper_m lib st))).mean_rating
        (movie_loop lib (sample_hyper_u lib (sample_hyper_m lib st))).sample_m alpha
        (movie_loop lib (sample_hyper_u lib (sample_hyper_m lib st))).mu_u
        (movie_loop lib (sample_hyper_u lib (sample_hyper_m lib st))).Lambda_u
        (draw lib (movie_loop lib (sample_hyper_u lib (sample_hyper_m lib st))).rng uu.val)
      = posterior_draw lib.inverse lib.llt uu st.M.transpose st.mean_rating
        (user_loop lib st.M.transpose
          (movie_loop lib (sample_hyper_u lib (sample_hyper_m lib st)))).sample_m alpha
        hu.1.1 hu.1.2 (draw lib (rngAfter lib hu.2 nc) uu.val)
    rw [hm_m]
    have e1 : (movie_loop lib (sample_hyper_u lib (sample_hyper_m lib st))).mean_rating
        = st.mean_rating := by rw [hMf]; rfl
    have e2 : (movie_loop lib (sample_hyper_u lib (sample_hyper_m lib st))).mu_u = hu.1.1 := by
      rw [hMf]; rfl
    have e3 : (movie_loop lib (sample_hyper_u lib (sample_hyper_m lib st))).Lambda_u = hu.1.2 := by
      rw [hMf]; rfl
    have e4 : (movie_loop lib (sample_hyper_u lib (sample_hyper_m lib st))).rng
        = rngAfter lib hu.2 nc := by rw [hMf]; rfl
    rw [e1, e2, e3, e4]
  · rw [hst', report]
    have e1 : (user_loop lib st.M.transpose
        (movie_loop lib (sample_hyper_u lib (sample_hyper_m lib st)))).out = st.out := by
      rw [hUf]
      show (movie_loop lib (sample_hyper_u lib (sample_hyper_m lib st))).out = st.out
      rw [hMf]; rfl
    have e2 : (user_loop lib st.M.transpose
        (movie_loop lib (sample_hyper_u lib (sample_hyper_m lib st)))).P = st.P := by
      rw [hUf]
      show (movie_loop lib (sample_hyper_u lib (sample_hyper_m lib st))).P = st.P
      rw [hMf]; rfl
    have e3 : (user_loop lib st.M.transpose
        (movie_loop lib (sample_hyper_u lib (sample_hyper_m lib st)))).mean_rating
        = st.mean_rating := by
      rw [hUf]
      show (movie_loop lib (sample_hyper_u lib (sample_hyper_m lib st))).mean_rating
        = st.mean_rating
      rw [hMf]; rfl
    simp only [e1, e2, e3]
  · rw [hst', report, hUf]
    show rngAfter lib (movie_loop lib (sample_hyper_u lib (sample_hyper_m lib st))).rng nr = _
    have e4 : (movie_loop lib (sample_hyper_u lib (sample_hyper_m lib st))).rng
        = rngAfter lib hu.2 nc := by rw [hMf]; rfl
    rw [e4]

end RunFacts

/-! ## The evaluator -/

section EvaluatorFacts

variable [LinearOrderedField K]

theorem eval_inner_fold (log10_200 : K) (sample_m : Matrix (Fin num_feat) (Fin nc) K)
    (sample_u : Matrix (Fin num_feat) (Fin nr) K) (mean_rating : K) (k : Fin nc)
    (l : List (Fin nr × K)) (acc : Nat × K) (hacc : acc.1 < 2 ^ 32) :
    l.foldl (eval_probe_step log10_200 sample_m sample_u mean_rating k) acc =
      ((acc.1 + ((l.map fun it => (it.1, k, it.2)).filter fun e : Fin nr × Fin nc × K =>
          decide (e.2.2 < log10_200 ↔
            prediction sample_m sample_u mean_rating e.1 e.2.1 < log10_200)).length) % 2 ^ 32,
       acc.2 + ((l.map fun it => (it.1, k, it.2)).map fun e : Fin nr × Fin nc × K =>
          |e.2.2 - prediction sample_m sample_u mean_rating e.1 e.2.1|).sum) := by
  induction l generalizing acc with
  | nil =>
    simp only [List.foldl_nil, List.map_nil, List.filter_nil, List.length_nil, Nat.add_zero,
      List.sum_nil, add_zero]
    rw [Nat.mod_eq_of_lt hacc]
  | cons it rest ih =>
    rw [List.foldl_cons, ih _ (by simp only [eval_probe_step]; exact Nat.mod_lt _ (by norm_num))]
    simp only [eval_probe_step, List.map_cons, List.sum_cons, List.filter_cons]
    by_cases h : (it.2 < log10_200 ↔
        prediction sample_m sample_u mean_rating it.1 k < log10_200)
    · have hd : decide (it.2 < log10_200)
          = decide (prediction sample_m sample_u mean_rating it.1 k < log10_200) := by
        simpa using h
      simp only [hd, if_true, h, decide_True, List.length_cons]
      refine Prod.ext ?_ ?_
      · simp only [Nat.add_mod_mod, Nat.mod_add_mod]
        congr 1
        omega
      · simp only [add_assoc]
    · have hd : ¬ decide (it.2 < log10_200)
          = decide (prediction sample_m sample_u mean_rating it.1 k < log10_200) := by
        simpa using h
      simp only [hd, if_false, h, decide_False, Nat.add_zero]
      refine Prod.ext ?_ ?_
      · simp only [Nat.add_mod_mod, Nat.mod_add_mod, Bool.false_eq_true, if_false]
      · simp only [add_assoc]

theorem eval_outer_fold (log10_200 : K) (P : SparseMatrixD K nr nc)
    (sample_m : Matrix (Fin num_feat) (Fin nc) K)
    (sample_u : Matrix (Fin num_feat) (Fin nr) K) (mean_rating : K)
    (ks : List (Fin nc)) (acc : Nat × K) (hacc : acc.1 < 2 ^ 32) :
    ks.foldl (fun acc k =>
        (P.inner k).foldl (eval_probe_step log10_200 sample_m sample_u mean_rating k) acc) acc =
      ((acc.1 + ((ks.flatMap fun k => (P.inner k).map fun it => (it.1, k, it.2)).filter
          fun e : Fin nr × Fin nc × K =>
          decide (e.2.2 < log10_200 ↔
            prediction sample_m sample_u mean_rating e.1 e.2.1 < log10_200)).length) % 2 ^ 32,
       acc.2 + ((ks.flatMap fun k => (P.inner k).map fun it => (it.1, k, it.2)).map
          fun e : Fin nr × Fin nc × K =>
          |e.2.2 - prediction sample_m sample_u mean_rating e.1 e.2.1|).sum) := by
  induction ks generalizing acc with
  | nil =>
    simp only [List.foldl_nil, List.flatMap_nil, List.filter_nil, List.length_nil, Nat.add_zero,
      List.map_nil, List.sum_nil, add_zero]
    rw [Nat.mod_eq_of_lt hacc]
  | cons k rest ih =>
    rw [List.foldl_cons, eval_inner_fold _ _ _ _ _ _ _ hacc, ih _ (Nat.mod_lt _ (by norm_num))]
    simp only [List.flatMap_cons, List.filter_append, List.length_append, List.map_append,
      List.sum_append]
    refine Prod.ext ?_ ?_
    · simp only [Nat.mod_add_mod]
      congr 1
      omega
    · simp only [add_assoc]

omit [LinearOrderedField K] in
theorem triples_length (P : SparseMatrixD K nr nc) : P.triples.length = P.nonZeros := by
  simp [SparseMatrixD.triples, SparseMatrixD.nonZeros, countStored, List.length_flatMap,
    Function.comp_def]

theorem eval_probe_vec_eq (log10_200 : K) (P : SparseMatrixD K nr nc)
    (sample_m : Matrix (Fin num_feat) (Fin nc) K) (sample_u : Matrix (Fin num_feat) (Fin nr) K)
    (mean_rating : K) :
    eval_probe_vec log10_200 P sample_m sample_u mean_rating =
      (Dbl.div (Dbl.finite (probe_correct log10_200 P sample_m sample_u mean_rating : K))
          (Dbl.finite (P.nonZeros : K)),
       Dbl.div (Dbl.finite (probe_diff P sample_m sample_u mean_rating))
          (Dbl.finite (P.nonZeros : K))) := by
  have hn : P.nonZeros < 2 ^ 31 := P.nnz_lt
  have hc : probe_correct log10_200 P sample_m sample_u mean_rating ≤ P.nonZeros := by
    rw [← triples_length]
    exact List.length_filter_le _ _
  have hfold := eval_outer_fold log10_200 P sample_m sample_u mean_rating (List.finRange nc)
    ((0 : Nat), (0 : K)) (by norm_num)
  simp only [eval_probe_vec, hfold, Nat.zero_add, zero_add]
  have h1 : P.nonZeros % 2 ^ 32 = P.nonZeros := Nat.mod_eq_of_lt (by omega)
  have h2 : probe_correct log10_200 P sample_m sample_u mean_rating % 2 ^ 32
      = probe_correct log10_200 P sample_m sample_u mean_rating := Nat.mod_eq_of_lt (by omega)
  rw [h1]
  unfold probe_correct SparseMatrixD.triples at h2
  unfold probe_correct probe_diff SparseMatrixD.triples
  rw [h2]

theorem Dbl.div_finite_of_ne_zero (x y : K) (hy : y ≠ 0) :
    Dbl.div (Dbl.finite x) (Dbl.finite y) = Dbl.finite (x / y) := by
  simp [Dbl.div, hy]

theorem probe_correct_of_exact (log10_200 : K) (P : SparseMatrixD K nr nc)
    (sample_m : Matrix (Fin num_feat) (Fin nc) K) (sample_u : Matrix (Fin num_feat) (Fin nr) K)
    (mean_rating : K)
    (hp : ∀ e ∈ P.triples, prediction sample_m sample_u mean_rating e.1 e.2.1 = e.2.2) :
    probe_correct log10_200 P sample_m sample_u mean_rating = P.nonZeros := by
  rw [← triples_length, probe_correct]
  congr 1
  rw [List.filter_eq_self]
  intro e he
  simp [hp e he]

/-- C6: for a probe matrix with `n >= 1` stored entries, `eval_probe_vec` returns
`(c/n, d/n)`, where, with `prediction(r,c) = dot(sample_m.col(c), sample_u.col(r)) + mean_rating`
for each stored probe entry `(r, c, v)`, `c` counts the entries for which `v < log10(200)`
holds exactly when `prediction < log10(200)` holds, and `d` is the sum of
`|v - prediction|` over all entries. -/
theorem eval_probe_vec_value (log10_200 : K) (P : SparseMatrixD K nr nc)
    (sample_m : Matrix (Fin num_feat) (Fin nc) K) (sample_u : Matrix (Fin num_feat) (Fin nr) K)
    (mean_rating : K) (hn : 1 ≤ P.nonZeros) :
    let pred := fun e : Fin nr × Fin nc × K =>
      (fun i => sample_m i e.2.1) ⬝ᵥ (fun i => sample_u i e.1) + mean_rating
    let c : Nat := (P.triples.filter fun e => decide (e.2.2 < log10_200 ↔ pred e < log10_200)).length
    let d : K := (P.triples.map fun e => |e.2.2 - pred e|).sum
    P.triples.length = P.nonZeros ∧
      eval_probe_vec log10_200 P sample_m sample_u mean_rating
        = (Dbl.finite ((c : K) / (P.nonZeros : K)), Dbl.finite (d / (P.nonZeros : K))) := by
  intro pred c d
  have hne : (P.nonZeros : K) ≠ 0 := by
    have : 0 < P.nonZeros := hn
    exact_mod_cast this.ne'
  refine ⟨triples_length P, ?_⟩
  rw [eval_probe_vec_eq, Dbl.div_finite_of_ne_zero _ _ hne, Dbl.div_finite_of_ne_zero _ _ hne]
  rfl

/-- Instance of `eval_probe_vec_value`: the one-entry probe matrix `toyP`. -/
theorem eval_probe_vec_value_witness :
    1 ≤ toyP.nonZeros ∧
      toyP.triples.length = toyP.nonZeros ∧
      eval_probe_vec (2301 / 1000) toyP (fun _ _ => 1 : Matrix (Fin 1) (Fin 2) ℚ) (fun _ _ => 2) 1
        = (Dbl.finite
            ((((toyP.triples.filter fun e => decide (e.2.2 < (2301 / 1000 : ℚ) ↔
                (fun _ : Fin 1 => (1 : ℚ)) ⬝ᵥ (fun _ : Fin 1 => (2 : ℚ)) + 1 < 2301 / 1000)).length : ℕ) : ℚ)
              / (toyP.nonZeros : ℚ)),
           Dbl.finite
            ((toyP.triples.map fun e =>
                |e.2.2 - ((fun _ : Fin 1 => (1 : ℚ)) ⬝ᵥ (fun _ : Fin 1 => (2 : ℚ)) + 1)|).sum
              / (toyP.nonZeros : ℚ))) :=
  ⟨by decide,
   eval_probe_vec_value (2301 / 1000) toyP (fun _ _ => 1 : Matrix (Fin 1) (Fin 2) ℚ) (fun _ _ => 2) 1
     (by decide)⟩

/-- C7 (amended): for every probe matrix with at least one stored entry and every pair of
latent matrices such that the prediction `dot(item_vector, user_vector) + mean_rating` of
every probe entry equals that entry's value, `eval_probe_vec` returns an accuracy of
exactly `1`. -/
theorem eval_probe_vec_exact_predictions (log10_200 : K) (P : SparseMatrixD K nr nc)
    (sample_m : Matrix (Fin num_feat) (Fin nc) K) (sample_u : Matrix (Fin num_feat) (Fin nr) K)
    (mean_rating : K) (hn : 1 ≤ P.nonZeros)
    (hp : ∀ e ∈ P.triples,
      (fun i => sample_m i e.2.1) ⬝ᵥ (fun i => sample_u i e.1) + mean_rating = e.2.2) :
    (eval_probe_vec log10_200 P sample_m sample_u mean_rating).1 = Dbl.finite 1 := by
  have hne : (P.nonZeros : K) ≠ 0 := by
    have : 0 < P.nonZeros := hn
    exact_mod_cast this.ne'
  rw [eval_probe_vec_eq, probe_correct_of_exact log10_200 P sample_m sample_u mean_rating hp,
    Dbl.div_finite_of_ne_zero _ _ hne, div_self hne]

/-- Instance of `eval_probe_vec_exact_predictions`: the probe entry `(0,0,3)` with item
vector `1`, user vector `2` and `mean_rating = 1`. -/
theorem eval_probe_vec_exact_predictions_witness :
    1 ≤ toyP.nonZeros ∧
      (∀ e ∈ toyP.triples,
        (fun _ : Fin 1 => (1 : ℚ)) ⬝ᵥ (fun _ : Fin 1 => (2 : ℚ)) + 1 = e.2.2) ∧
      (eval_probe_vec (2301 / 1000) toyP (fun _ _ => 1 : Matrix (Fin 1) (Fin 2) ℚ) (fun _ _ => 2) 1).1
        = Dbl.finite 1 :=
  have hp : ∀ e ∈ toyP.triples,
      (fun _ : Fin 1 => (1 : ℚ)) ⬝ᵥ (fun _ : Fin 1 => (2 : ℚ)) + 1 = e.2.2 := by
    intro e he
    have h3 : toyP.triples = [((0 : Fin 2), (0 : Fin 2), (3 : ℚ))] := by
      simp [SparseMatrixD.triples, toyP, List.finRange_succ]
    rw [h3] at he
    simp only [List.mem_singleton] at he
    subst he
    simp [dotProduct]
    norm_num
  ⟨by decide, hp,
   eval_probe_vec_exact_predictions (2301 / 1000) toyP (fun _ _ => 1 : Matrix (Fin 1) (Fin 2) ℚ)
     (fun _ _ => 2) 1 (by decide) hp⟩

/-- C7 as stated fails: on the probe matrix without stored entries every prediction
(there is none) equals its probe value, and the accuracy is `0 / 0 = NaN`, not `1`. -/
theorem eval_probe_vec_empty_probe :
    (∀ e ∈ emptyP.triples,
        (fun _ : Fin 1 => (1 : ℚ)) ⬝ᵥ (fun _ : Fin 1 => (2 : ℚ)) + 1 = e.2.2) ∧
      (eval_probe_vec (2301 / 1000) emptyP (fun _ _ => 1 : Matrix (Fin 1) (Fin 2) ℚ) (fun _ _ => 2) 1).1
        = Dbl.nan ∧
      (eval_probe_vec (2301 / 1000) emptyP (fun _ _ => 1 : Matrix (Fin 1) (Fin 2) ℚ) (fun _ _ => 2) 1).1
        ≠ Dbl.finite 1 := by
  have h0 : emptyP.triples = [] := by
    simp [SparseMatrixD.triples, emptyP]
  have hn : emptyP.nonZeros = 0 := by decide
  have hv : (eval_probe_vec (2301 / 1000) emptyP (fun _ _ => 1 : Matrix (Fin 1) (Fin 2) ℚ) (fun _ _ => 2) 1).1
      = Dbl.nan := by
    rw [eval_probe_vec_eq, probe_correct, h0, hn]
    simp [Dbl.div]
  refine ⟨?_, hv, ?_⟩
  · intro e he
    rw [h0] at he
    cases he
  · rw [hv]
    intro h
    cases h

end EvaluatorFacts

/-! ## The number of iterations of `run` -/

section RunCount

variable [LinearOrderedField K] {G : Type}

/-- C5 (amended): `run` executes exactly `nsims` Gibbs iterations (`20`), with iteration
counters `0, ..., nsims - 1`, each appending one diagnostic line; `burnin` does not enter. -/
theorem run_iterations (lib : Lib K G num_feat) (st : Globals K G num_feat nr nc) :
    (run lib st).out.map Line.iter = st.out.map Line.iter ++ List.range nsims ∧
      (run lib st).out.length = st.out.length + nsims ∧ nsims = 20 :=
  ⟨foldl_iteration_out lib st.M.transpose (List.range nsims) st, run_out_length lib st, rfl⟩

/-- C5 as stated fails: started after `init()` on the toy matrices, `run` prints `20`
lines, while `burnin + nsims = 25`. -/
theorem run_iterations_not_burnin_plus_nsims :
    (run toyLib toyGlobals).out.length = 20 ∧ burnin + nsims = 25 :=
  ⟨by rw [run_out_length]; rfl, rfl⟩

end RunCount

/-! ## Positive definiteness of the posterior precision (real arithmetic) -/

section Cholesky

variable {ι : Type} [LinearOrder ι] [WellFoundedLT ι] [LocallyFiniteOrderBot ι] [Fintype ι]

theorem ldl_diagEntries_pos {S : Matrix ι ι ℝ} (hS : S.PosDef) (i : ι) :
    0 < LDL.diagEntries hS i := by
  have hrow : LDL.lowerInv hS i ≠ 0 := by
    intro h0
    have hdet : (LDL.lowerInv hS).det = 0 := Matrix.det_eq_zero_of_row_eq_zero i (fun j => congrFun h0 j)
    have hu : IsUnit (LDL.lowerInv hS).det :=
      (Matrix.isUnit_iff_isUnit_det _).1 (isUnit_of_invertible _)
    rw [hdet] at hu
    exact not_isUnit_zero hu
  have hpos := hS.2 (star (LDL.lowerInv hS i)) (by simpa using hrow)
  simpa [LDL.diagEntries, EuclideanSpace.inner_piLp_equiv_symm] using hpos

theorem exists_lower_factor {S : Matrix ι ι ℝ} (hS : S.PosDef) :
    ∃ L : Matrix ι ι ℝ, (∀ i j, i < j → L i j = 0) ∧ L * Lᵀ = S := by
  let R : Matrix ι ι ℝ := diagonal fun i => Real.sqrt (LDL.diagEntries hS i)
  refine ⟨LDL.lower hS * R, ?_, ?_⟩
  · have hinv : (LDL.lowerInv hS).BlockTriangular OrderDual.toDual := by
      intro i j hij
      exact LDL.lowerInv_triangular hS (by simpa using hij)
    have hlow : (LDL.lower hS).BlockTriangular OrderDual.toDual :=
      blockTriangular_inv_of_blockTriangular hinv
    have hmul := hlow.mul (blockTriangular_diagonal fun i => Real.sqrt (LDL.diagEntries hS i))
    intro i j hij
    exact hmul (by simpa using hij)
  · have hRR : R * Rᵀ = LDL.diag hS := by
      have hfun : (fun i => Real.sqrt (LDL.diagEntries hS i) * Real.sqrt (LDL.diagEntries hS i))
          = LDL.diagEntries hS := by
        funext i
        exact Real.mul_self_sqrt (ldl_diagEntries_pos hS i).le
      simp only [R, diagonal_transpose, diagonal_mul_diagonal, LDL.diag, hfun]
    have h := LDL.lower_conj_diag hS
    rw [Matrix.transpose_mul, ← Matrix.mul_assoc, Matrix.mul_assoc (LDL.lower hS) R, hRR]
    simpa [conjTranspose_eq_transpose_of_trivial] using h

theorem exists_cholesky {S : Matrix ι ι ℝ} (hS : S.PosDef) :
    ∃ L : Matrix ι ι ℝ,
      (∀ i j, i < j → L i j = 0) ∧ (∀ i, 0 < L i i) ∧ L * Lᵀ = S := by
  obtain ⟨L, hlow, hLL⟩ := exists_lower_factor hS
  have hdet : L.det ≠ 0 := by
    intro h0
    have : S.det = 0 := by rw [← hLL, det_mul, h0, zero_mul]
    exact hS.det_pos.ne' this
  have hprod : L.det = ∏ i, L i i :=
    det_of_lowerTriangular L (fun i j hij => hlow i j (by simpa using hij))
  have hdiag : ∀ i, L i i ≠ 0 := by
    intro i h0
    apply hdet
    rw [hprod]
    exact Finset.prod_eq_zero (Finset.mem_univ i) h0
  let sg : ι → ℝ := fun j => if 0 < L j j then 1 else -1
  have hsg : ∀ j, sg j * sg j = 1 := by
    intro j
    by_cases h : 0 < L j j <;> simp [sg, h]
  refine ⟨L * diagonal sg, ?_, ?_, ?_⟩
  · intro i j hij
    simp [mul_diagonal, hlow i j hij]
  · intro i
    simp only [mul_diagonal, sg]
    by_cases h : 0 < L i i
    · simp [h]
    · have hneg : L i i < 0 := lt_of_le_of_ne (not_lt.1 h) (hdiag i)
      simp [h]
      exact hneg
  · rw [Matrix.transpose_mul, diagonal_transpose, ← Matrix.mul_assoc, Matrix.mul_assoc L,
      diagonal_mul_diagonal]
    have : (diagonal fun i => sg i * sg i) = (1 : Matrix ι ι ℝ) := by
      simp [hsg]
    rw [this, Matrix.mul_one, hLL]

end Cholesky

theorem exists_cholesky_fin {n : Nat} {S : Matrix (Fin n) (Fin n) ℝ} (hS : S.PosDef) :
    ∃ L : Matrix (Fin n) (Fin n) ℝ,
      (∀ i j, i < j → L i j = 0) ∧ (∀ i, 0 < L i i) ∧ L * Lᵀ = S :=
  @exists_cholesky (Fin n) _ (inferInstance : WellFoundedLT (Fin n)) _ _ S hS

section DegreeZero

variable [CommRing K]

end DegreeZero

section RealFacts

theorem posSemidef_smul_self_mul_transpose {m : Nat} (E : Matrix (Fin num_feat) (Fin m) ℝ)
    (a : ℝ) (ha : 0 ≤ a) : (a • (E * Eᵀ)).PosSemidef := by
  have h : (E * Eᵀ).PosSemidef := by
    have := Matrix.posSemidef_self_mul_conjTranspose E
    simpa [conjTranspose_eq_transpose_of_trivial] using this
  refine ⟨?_, fun x => ?_⟩
  · have hs : (E * Eᵀ).IsSymm := by
      simp [Matrix.IsSymm, Matrix.transpose_mul]
    exact hs.smul a
  · rw [Matrix.smul_mulVec_assoc, Matrix.dotProduct_smul]
    exact smul_nonneg ha (h.2 x)

theorem sample_movie_precision_posDef_of_nonneg (mm : Fin nc) (mat : SparseMatrixD ℝ nr nc)
    (mean_rating : ℝ) (samples : Matrix (Fin num_feat) (Fin nr) ℝ) (a : Int) (ha : 0 ≤ a)
    (Lambda : Matrix (Fin num_feat) (Fin num_feat) ℝ) (hL : Lambda.PosDef) :
    (sample_movie_precision mm mat mean_rating samples a Lambda).PosDef := by
  rw [sample_movie_precision, sample_movie_MM]
  exact hL.add_posSemidef (posSemidef_smul_self_mul_transpose _ _ (by exact_mod_cast ha))

/-- C10 (amended): in exact real arithmetic, for every entity, every gathered matrix `E`
(the empty one included) and every symmetric positive definite prior precision `Lambda`,
the matrix `Lambda + alpha*E*E^T` of `sample_movie` with `alpha = 2` is symmetric positive
definite; its exact inverse exists, is symmetric positive definite, and has a Cholesky
factor (lower triangular, positive diagonal). -/
theorem sample_movie_precision_posDef (mm : Fin nc) (mat : SparseMatrixD ℝ nr nc)
    (mean_rating : ℝ) (samples : Matrix (Fin num_feat) (Fin nr) ℝ)
    (Lambda : Matrix (Fin num_feat) (Fin num_feat) ℝ) (hL : Lambda.PosDef) :
    let P := sample_movie_precision mm mat mean_rating samples alpha Lambda
    P.PosDef ∧ P⁻¹ * P = 1 ∧ P * P⁻¹ = 1 ∧ P⁻¹.PosDef ∧
      ∃ L : Matrix (Fin num_feat) (Fin num_feat) ℝ,
        (∀ i j, i < j → L i j = 0) ∧ (∀ i, 0 < L i i) ∧ L * Lᵀ = P⁻¹ := by
  intro P
  have hP : P.PosDef :=
    sample_movie_precision_posDef_of_nonneg mm mat mean_rating samples alpha (by decide) Lambda hL
  have hdet : IsUnit P.det := (Matrix.isUnit_iff_isUnit_det _).1 hP.isUnit
  exact ⟨hP, Matrix.nonsing_inv_mul _ hdet, Matrix.mul_nonsing_inv _ hdet, hP.inv,
    exists_cholesky_fin hP.inv⟩

/-- Instance of `sample_movie_precision_posDef`: identity prior precision, item `1` of the
matrix `sparseCol` (two stored entries), all user vectors equal to `(2, 2)`. -/
theorem sample_movie_precision_posDef_witness :
    (1 : Matrix (Fin 2) (Fin 2) ℝ).PosDef ∧
      (sample_movie_precision (1 : Fin 2) sparseCol 0 (fun _ _ => 2 : Matrix (Fin 2) (Fin 2) ℝ)
        alpha 1).PosDef :=
  ⟨Matrix.PosDef.one,
   (sample_movie_precision_posDef (1 : Fin 2) sparseCol 0 (fun _ _ => 2) 1 Matrix.PosDef.one).1⟩

end RealFacts

/-! ## `HyperParams::sample` at `N = 0` -/

section HyperFacts

variable [LinearOrderedField K] {num_latent : Nat} {G : Type}

theorem Dbl.div_zero_not_finite (a : Dbl K) :
    Dbl.div a (Dbl.finite 0) = Dbl.nan ∨ Dbl.div a (Dbl.finite 0) = Dbl.posInf ∨
      Dbl.div a (Dbl.finite 0) = Dbl.negInf := by
  cases a with
  | finite x =>
    by_cases hx : x = 0
    · simp [Dbl.div, hx]
    · by_cases hp : 0 < x
      · simp [Dbl.div, hx, hp]
      · simp [Dbl.div, hx, hp]
  | posInf => simp [Dbl.div]
  | negInf => simp [Dbl.div]
  | nan => simp [Dbl.div]

theorem Dbl.zero_mul_of_not_finite (a : Dbl K)
    (ha : a = Dbl.nan ∨ a = Dbl.posInf ∨ a = Dbl.negInf) :
    Dbl.mul (Dbl.finite 0) a = Dbl.nan := by
  rcases ha with h | h | h <;> simp [h, Dbl.mul]

theorem Dbl.add_nan (a : Dbl K) : Dbl.add a Dbl.nan = Dbl.nan := by
  cases a <;> rfl

theorem Dbl.nan_div (a : Dbl K) : Dbl.div Dbl.nan a = Dbl.nan := by
  cases a <;> rfl

/-- C8 (the code at `N = 0`): `HyperParams::sample` hands `sum / N` to `CondNormalWishart`;
for `N = 0` every component of that vector is `NaN`, `+inf` or `-inf`, whatever `sum` is,
and the posterior mean `(b0·mu0 + N·Um) / (b0 + N)` of the conjugate update is `NaN` in
every component (`mu0` is the zero vector set by the constructor). -/
theorem HyperParams_sample_zero_count
    (CondNormalWishart : Int → (Fin num_latent → Fin num_latent → Dbl K) → (Fin num_latent → Dbl K) →
      (Fin num_latent → Dbl K) → Dbl K → (Fin num_latent → Fin num_latent → Dbl K) → Int → G →
      ((Fin num_latent → Dbl K) × (Fin num_latent → Fin num_latent → Dbl K)) × G)
    (hp : HyperParams K num_latent) (sum : Fin num_latent → Dbl K)
    (cov : Fin num_latent → Fin num_latent → Dbl K) (g : G) (i : Fin num_latent) :
    (HyperParams.sample CondNormalWishart hp 0 sum cov g).1.mu
        = (CondNormalWishart 0 cov (HyperParams.sample_Um 0 sum) hp.mu0
            (Dbl.finite (HyperParams.b0 : K)) hp.WI (HyperParams.df num_latent) g).1.1 ∧
      Dbl.isFinite (HyperParams.sample_Um 0 sum i) = false ∧
      CondNormalWishart_mean 0 (HyperParams.sample_Um 0 sum) hp.mu0
        (Dbl.finite (HyperParams.b0 : K)) i = Dbl.nan := by
  have hU := Dbl.div_zero_not_finite (sum i)
  have hUm : HyperParams.sample_Um 0 sum i = Dbl.div (sum i) (Dbl.finite 0) := by
    simp [HyperParams.sample_Um]
  refine ⟨rfl, ?_, ?_⟩
  · rw [hUm]
    rcases hU with h | h | h <;> rw [h] <;> rfl
  · simp only [CondNormalWishart_mean, Int.cast_zero, hUm]
    rw [Dbl.zero_mul_of_not_finite _ hU, Dbl.add_nan, Dbl.nan_div]

end HyperFacts

/-! ## Rounded arithmetic: evaluation of `fl` -/

section RoundedFacts

theorem int_log_two_eq (q : ℚ) (k : ℤ) (hq : 0 < q) (hlo : (2 : ℚ) ^ k ≤ q)
    (hhi : q < (2 : ℚ) ^ (k + 1)) : Int.log 2 q = k := by
  apply le_antisymm
  · have h := (Int.lt_zpow_iff_log_lt (R := ℚ) (b := 2) (by norm_num) hq (x := k + 1)).1
      (by simpa using hhi)
    omega
  · exact (Int.zpow_le_iff_le_log (R := ℚ) (b := 2) (by norm_num) hq).1 (by simpa using hlo)

theorem fl_of_pos (q : ℚ) (e f : ℤ) (hq : 0 < q) (hlo : (2 : ℚ) ^ (e + 52) ≤ q)
    (hhi : q < (2 : ℚ) ^ (e + 52 + 1)) (hf : (f : ℚ) ≤ q / (2 : ℚ) ^ e)
    (hf' : q / (2 : ℚ) ^ e < f + 1) :
    fl q = ((if q / (2 : ℚ) ^ e - f < 1 / 2 then f else
      if 1 / 2 < q / (2 : ℚ) ^ e - f then f + 1 else if f % 2 = 0 then f else f + 1 : ℤ) : ℚ)
        * (2 : ℚ) ^ e := by
  have hlog : Int.log 2 |q| = e + 52 := by
    rw [abs_of_pos hq]
    exact int_log_two_eq q (e + 52) hq hlo hhi
  have hfloor : ⌊q / (2 : ℚ) ^ e⌋ = f := by
    rw [Int.floor_eq_iff]
    exact ⟨hf, hf'⟩
  simp only [fl, hq.ne', if_false, hlog, add_sub_cancel_right, hfloor]

theorem fl_two_pow_54 : fl (2 ^ 54) = 2 ^ 54 := by
  rw [fl_of_pos (2 ^ 54) 2 (2 ^ 52) (by norm_num) (by norm_num) (by norm_num) (by norm_num)
    (by norm_num)]
  norm_num

theorem fl_two_pow_55 : fl (2 ^ 55) = 2 ^ 55 := by
  rw [fl_of_pos (2 ^ 55) 3 (2 ^ 52) (by norm_num) (by norm_num) (by norm_num) (by norm_num)
    (by norm_num)]
  norm_num

theorem fl_one_add_two_pow_55 : fl (1 + 2 ^ 55) = 2 ^ 55 := by
  rw [fl_of_pos (1 + 2 ^ 55) 3 (2 ^ 52) (by norm_num) (by norm_num) (by norm_num) (by norm_num)
    (by norm_num)]
  norm_num

theorem fl_dot_of_dim_one {n : Nat} (h : n = 1) (u v : Fin n → ℚ) :
    fl_dot u v = fl (0 + fl (u ⟨0, by omega⟩ * v ⟨0, by omega⟩)) := by
  subst h
  simp [fl_dot, List.finRange_succ]

theorem toyP_degree_one : toyP.colNonZeros 0 = 1 := by
  simp [SparseMatrixD.colNonZeros, toyP]

theorem toyP_precision_fl :
    sample_movie_precision_fl (0 : Fin 2) toyP 0 (fun _ _ => 2 ^ 27 : Matrix (Fin 2) (Fin 2) ℚ)
      alpha 1 = fun _ _ => 2 ^ 55 := by
  funext i j
  have hdot : ∀ a b : Fin 2, fl_dot
      ((sample_movie_gather (0 : Fin 2) toyP 0 (fun _ _ => 2 ^ 27 : Matrix (Fin 2) (Fin 2) ℚ)).1 a)
      ((sample_movie_gather (0 : Fin 2) toyP 0 (fun _ _ => 2 ^ 27 : Matrix (Fin 2) (Fin 2) ℚ)).1 b)
      = 2 ^ 54 := by
    intro a b
    rw [fl_dot_of_dim_one toyP_degree_one, sample_movie_gather_fst]
    have h : (2 : ℚ) ^ 27 * 2 ^ 27 = 2 ^ 54 := by norm_num
    simp only [gatheredE, h, fl_two_pow_54, zero_add]
  have h2 : ((alpha : ℤ) : ℚ) * 2 ^ 54 = 2 ^ 55 := by
    simp [alpha]
    norm_num
  simp only [sample_movie_precision_fl, hdot, h2, fl_two_pow_55]
  by_cases hij : i = j
  · subst hij
    simp only [Matrix.one_apply_eq, fl_one_add_two_pow_55]
  · simp only [Matrix.one_apply_ne hij, zero_add, fl_two_pow_55]

/-- C10 as stated fails in double arithmetic: with identity prior precision and the single
gathered vector `(2^27, 2^27)`, the sum `1 + 2^55` rounds to `2^55`, so the matrix the code
hands to `inverse()` has all entries `2^55`: it is singular and not positive definite. -/
theorem sample_movie_precision_rounds_to_singular :
    (1 : Matrix (Fin 2) (Fin 2) ℚ).PosDef ∧
      sample_movie_precision_fl (0 : Fin 2) toyP 0 (fun _ _ => 2 ^ 27 : Matrix (Fin 2) (Fin 2) ℚ)
        alpha 1 = (fun _ _ => 2 ^ 55) ∧
      (sample_movie_precision_fl (0 : Fin 2) toyP 0 (fun _ _ => 2 ^ 27 : Matrix (Fin 2) (Fin 2) ℚ)
        alpha 1).det = 0 ∧
      ¬ (sample_movie_precision_fl (0 : Fin 2) toyP 0
        (fun _ _ => 2 ^ 27 : Matrix (Fin 2) (Fin 2) ℚ) alpha 1).PosDef := by
  refine ⟨Matrix.PosDef.one, toyP_precision_fl, ?_, ?_⟩
  · rw [toyP_precision_fl, Matrix.det_fin_two]
    ring
  · rw [toyP_precision_fl]
    intro h
    have hx : (fun k : Fin 2 => if k = 0 then (1 : ℚ) else -1) ≠ 0 := by
      intro h0
      have := congrFun h0 0
      simp at this
    have := h.2 _ hx
    simp [Matrix.dotProduct, Matrix.mulVec, Fin.sum_univ_two] at this

end RoundedFacts

end BPMF
